import Mathlib

/-!
Verification development for the housing-data analyzer (`houingData.py`).

The source builds a binary search tree over listing prices (`insert_bst`,
`build_price_bst`), answers price-range queries by a pruned traversal
(`search_by_price_range`, `find_properties_in_price_range`), and computes
grouped mean prices (`calculate_average_price_by_location`, `find_trends`).

Prices are Python floats holding decimal data; we embed them as rationals.
Python dicts preserve insertion order, so the `defaultdict` groupings are
embedded as association lists built by folding over the listing collection.
-/

/-- The `Property` record constructed during ingestion: identifier, price,
bedroom count, city, and sale year (only the year of the parsed date is
ever used by the analyzer). -/
structure Property where
  id : Nat
  latestPrice : ℚ
  numOfBedrooms : Nat
  city : String
  latest_saleyear : Nat
deriving DecidableEq, Repr

/-- A node of the price BST: a property plus `left`/`right` children, with
`leaf` standing for Python's `None`. -/
inductive BST where
  | leaf : BST
  | node : BST → Property → BST → BST
deriving DecidableEq, Repr

/-- `insert_bst`: strictly smaller prices go left, equal-or-larger go right. -/
def insert_bst : BST → Property → BST
  | .leaf, p => .node .leaf p .leaf
  | .node l x r, p =>
      if p.latestPrice < x.latestPrice then
        .node (insert_bst l p) x r
      else
        .node l x (insert_bst r p)

/-- The loop body of `build_price_bst`: start from an empty root (`self.price_bst_root = None`)
and insert every property in sequence order. -/
def buildTree (props : List Property) : BST :=
  props.foldl insert_bst .leaf

/-- The analyzer state: the listing collection and the BST root
(`self.properties`, `self.price_bst_root`). -/
structure RealEstateAnalyzer where
  properties : List Property
  price_bst_root : BST

/-- `__init__`: empty collection, root `None`. -/
def RealEstateAnalyzer.init : RealEstateAnalyzer :=
  { properties := [], price_bst_root := .leaf }

/-- `load_data`: appends the ingested rows to the listing collection
(CSV parsing itself is the external ingestion collaborator). -/
def load_data (a : RealEstateAnalyzer) (rows : List Property) : RealEstateAnalyzer :=
  { a with properties := a.properties ++ rows }

/-- `build_price_bst`: resets the root and inserts every property. -/
def build_price_bst (a : RealEstateAnalyzer) : RealEstateAnalyzer :=
  { a with price_bst_root := buildTree a.properties }

/-- `search_by_price_range`, with the `results` accumulator made explicit as
the returned list: the node's own property is appended first (when in range),
then the left recursion's results, then the right recursion's. -/
def search_by_price_range : BST → ℚ → ℚ → List Property
  | .leaf, _, _ => []
  | .node l x r, mn, mx =>
      (if mn ≤ x.latestPrice ∧ x.latestPrice ≤ mx then [x] else []) ++
      (if mn < x.latestPrice then search_by_price_range l mn mx else []) ++
      (if mx > x.latestPrice then search_by_price_range r mn mx else [])

/-- `find_properties_in_price_range`: runs the search from the stored root
with a fresh `results` list. -/
def find_properties_in_price_range (a : RealEstateAnalyzer) (mn mx : ℚ) : List Property :=
  search_by_price_range a.price_bst_root mn mx

/-- `search_by_price_range` as the state transformer the Python method is:
it receives the current tree and the `results` list, threads the (unmodified)
children back into each node exactly as the heap would, and returns the
resulting tree together with the grown `results` list. The method body
contains no assignment to `self` or to any node field. -/
def search_run : BST → ℚ → ℚ → List Property → BST × List Property
  | .leaf, _, _, results => (.leaf, results)
  | .node l x r, mn, mx, results =>
      let results1 :=
        if mn ≤ x.latestPrice ∧ x.latestPrice ≤ mx then results ++ [x] else results
      let lres := if mn < x.latestPrice then search_run l mn mx results1 else (l, results1)
      let rres := if mx > x.latestPrice then search_run r mn mx lres.2 else (r, lres.2)
      (.node lres.1 x rres.1, rres.2)

/-- `find_properties_in_price_range` as a state transformer: the analyzer
state that results from running the query, paired with the query result. -/
def find_properties_run (a : RealEstateAnalyzer) (mn mx : ℚ) :
    RealEstateAnalyzer × List Property :=
  let res := search_run a.price_bst_root mn mx []
  ({ properties := a.properties, price_bst_root := res.1 }, res.2)

/-- First-occurrence lookup in an insertion-ordered association list
(how reading a Python dict behaves). -/
def dictGet {κ α : Type} [DecidableEq κ] : List (κ × α) → κ → Option α
  | [], _ => none
  | (k, v) :: rest, c => if k = c then some v else dictGet rest c

/-- `location_prices[prop.city].append(prop.latestPrice)` on a `defaultdict(list)`:
append to the existing group, or create a fresh group at the end. -/
def addPrice : List (String × List ℚ) → String → ℚ → List (String × List ℚ)
  | [], c, q => [(c, [q])]
  | (k, qs) :: rest, c, q =>
      if k = c then (k, qs ++ [q]) :: rest
      else (k, qs) :: addPrice rest c q

/-- The `location_prices` grouping pass of `calculate_average_price_by_location`. -/
def location_prices (props : List Property) : List (String × List ℚ) :=
  props.foldl (fun acc p => addPrice acc p.city p.latestPrice) []

/-- `calculate_average_price_by_location`: mean price per city group,
keys in insertion order. -/
def calculate_average_price_by_location (props : List Property) : List (String × ℚ) :=
  (location_prices props).map (fun g => (g.1, g.2.sum / (g.2.length : ℚ)))

/-- `yearly_location_prices[year][prop.city].append(...)` on the nested
`defaultdict(lambda: defaultdict(list))`. -/
def addYearPrice : List (Nat × List (String × List ℚ)) → Nat → String → ℚ →
    List (Nat × List (String × List ℚ))
  | [], y, c, q => [(y, addPrice [] c q)]
  | (k, m) :: rest, y, c, q =>
      if k = y then (k, addPrice m c q) :: rest
      else (k, m) :: addYearPrice rest y c q

/-- The grouping pass of `find_trends`. -/
def yearly_location_prices (props : List Property) :
    List (Nat × List (String × List ℚ)) :=
  props.foldl (fun acc p => addYearPrice acc p.latest_saleyear p.city p.latestPrice) []

/-- `find_trends`: per year, per city, the mean price. -/
def find_trends (props : List Property) : List (Nat × List (String × ℚ)) :=
  (yearly_location_prices props).map
    (fun g => (g.1, g.2.map (fun h => (h.1, h.2.sum / (h.2.length : ℚ)))))

/-- In-order listing of a tree's properties (left, node, right). -/
def BST.toList : BST → List Property
  | .leaf => []
  | .node l x r => l.toList ++ x :: r.toList

/-- Every property price in the tree satisfies `f`. -/
def allPrices (f : ℚ → Bool) : BST → Bool
  | .leaf => true
  | .node l x r => f x.latestPrice && allPrices f l && allPrices f r

/-- The BST order invariant: left-descendant prices are strictly below the
node's, right-descendant prices are greater-or-equal, recursively. -/
def isBST : BST → Bool
  | .leaf => true
  | .node l x r =>
      allPrices (fun q => q < x.latestPrice) l &&
      allPrices (fun q => x.latestPrice ≤ q) r &&
      isBST l && isBST r

/-- Decidable test for "price in the closed range [a, b]". -/
def inRangeB (a b : ℚ) (p : Property) : Bool :=
  decide (a ≤ p.latestPrice) && decide (p.latestPrice ≤ b)

/-- Decidable test for "price in the half-open range [a, b)". -/
def belowB (a b : ℚ) (p : Property) : Bool :=
  decide (a ≤ p.latestPrice) && decide (p.latestPrice < b)

/-- Decidable test for "price is exactly b". -/
def priceEqB (b : ℚ) (p : Property) : Bool :=
  decide (p.latestPrice = b)

/-- The degenerate tree produced by inserting a non-decreasing price sequence:
every node has an empty left child. -/
def rightSpine : List Property → BST
  | [] => .leaf
  | p :: ps => .node .leaf p (rightSpine ps)

/-- The three-listing scenario from the specification. -/
def scenarioListings : List Property :=
  [⟨1, 100, 2, "A", 2020⟩, ⟨2, 300, 2, "B", 2020⟩, ⟨3, 200, 2, "A", 2021⟩]

/-! ### Structural lemmas about the BST -/

open scoped List

lemma allPrices_iff (f : ℚ → Bool) (t : BST) :
    allPrices f t = true ↔ ∀ p ∈ t.toList, f p.latestPrice = true := by
  induction t with
  | leaf => simp [allPrices, BST.toList]
  | node l x r ihl ihr =>
      simp only [allPrices, Bool.and_eq_true, BST.toList, List.mem_append, List.mem_cons]
      rw [ihl, ihr]
      constructor
      · rintro ⟨⟨hx, hl⟩, hr⟩ p (hp | hp | hp)
        · exact hl p hp
        · exact hp ▸ hx
        · exact hr p hp
      · intro h
        exact ⟨⟨h x (Or.inr (Or.inl rfl)), fun p hp => h p (Or.inl hp)⟩,
          fun p hp => h p (Or.inr (Or.inr hp))⟩

lemma toList_insert (t : BST) (p : Property) :
    (insert_bst t p).toList ~ p :: t.toList := by
  induction t with
  | leaf => simp [insert_bst, BST.toList]
  | node l x r ihl ihr =>
      by_cases h : p.latestPrice < x.latestPrice
      · simp only [insert_bst, if_pos h, BST.toList]
        exact ihl.append_right (x :: r.toList)
      · simp only [insert_bst, if_neg h, BST.toList]
        calc l.toList ++ x :: (insert_bst r p).toList
            ~ l.toList ++ x :: p :: r.toList :=
              List.Perm.append_left l.toList (List.Perm.cons x ihr)
          _ = (l.toList ++ [x]) ++ p :: r.toList := by
              rw [List.append_assoc]; rfl
          _ ~ p :: ((l.toList ++ [x]) ++ r.toList) := List.perm_middle
          _ = p :: (l.toList ++ x :: r.toList) := by
              rw [List.append_assoc]; rfl

lemma toList_foldl (L : List Property) :
    ∀ t : BST, (L.foldl insert_bst t).toList ~ t.toList ++ L := by
  induction L with
  | nil => intro t; simp
  | cons p L ih =>
      intro t
      calc (List.foldl insert_bst t (p :: L)).toList
          = (List.foldl insert_bst (insert_bst t p) L).toList := rfl
        _ ~ (insert_bst t p).toList ++ L := ih (insert_bst t p)
        _ ~ (p :: t.toList) ++ L := (toList_insert t p).append_right L
        _ ~ t.toList ++ p :: L := List.perm_middle.symm

lemma toList_buildTree (L : List Property) : (buildTree L).toList ~ L := by
  simpa [BST.toList] using toList_foldl L .leaf

lemma allPrices_insert (f : ℚ → Bool) (t : BST) (p : Property)
    (hf : f p.latestPrice = true) (ht : allPrices f t = true) :
    allPrices f (insert_bst t p) = true := by
  rw [allPrices_iff] at ht ⊢
  intro q hq
  rcases List.mem_cons.mp ((toList_insert t p).mem_iff.mp hq) with h | h
  · exact h ▸ hf
  · exact ht q h

lemma isBST_insert (t : BST) (p : Property) (h : isBST t = true) :
    isBST (insert_bst t p) = true := by
  induction t with
  | leaf => simp [insert_bst, isBST, allPrices]
  | node l x r ihl ihr =>
      simp only [isBST, Bool.and_eq_true] at h
      obtain ⟨⟨⟨hal, har⟩, hbl⟩, hbr⟩ := h
      by_cases hlt : p.latestPrice < x.latestPrice
      · simp only [insert_bst, if_pos hlt, isBST, Bool.and_eq_true]
        exact ⟨⟨⟨allPrices_insert _ _ _ (decide_eq_true hlt) hal, har⟩, ihl hbl⟩, hbr⟩
      · simp only [insert_bst, if_neg hlt, isBST, Bool.and_eq_true]
        exact ⟨⟨⟨hal, allPrices_insert _ _ _ (decide_eq_true (not_lt.mp hlt)) har⟩, hbl⟩,
          ihr hbr⟩

lemma isBST_foldl (L : List Property) :
    ∀ t : BST, isBST t = true → isBST (L.foldl insert_bst t) = true := by
  induction L with
  | nil => intro t h; exact h
  | cons p L ih => intro t h; exact ih (insert_bst t p) (isBST_insert t p h)

lemma isBST_buildTree (L : List Property) : isBST (buildTree L) = true :=
  isBST_foldl L .leaf rfl

lemma mem_of_mem_search (t : BST) (a b : ℚ) (q : Property)
    (h : q ∈ search_by_price_range t a b) : q ∈ t.toList := by
  induction t with
  | leaf => simp [search_by_price_range] at h
  | node l x r ihl ihr =>
      simp only [search_by_price_range, List.mem_append] at h
      simp only [BST.toList, List.mem_append, List.mem_cons]
      rcases h with (h | h) | h
      · by_cases hc : a ≤ x.latestPrice ∧ x.latestPrice ≤ b
        · rw [if_pos hc] at h
          obtain rfl := List.mem_singleton.mp h
          exact Or.inr (Or.inl rfl)
        · rw [if_neg hc] at h
          exact absurd h (List.not_mem_nil q)
      · by_cases hc : a < x.latestPrice
        · rw [if_pos hc] at h
          exact Or.inl (ihl h)
        · rw [if_neg hc] at h
          exact absurd h (List.not_mem_nil q)
      · by_cases hc : b > x.latestPrice
        · rw [if_pos hc] at h
          exact Or.inr (Or.inr (ihr h))
        · rw [if_neg hc] at h
          exact absurd h (List.not_mem_nil q)

/-! ### Soundness and completeness of the pruned range search -/

lemma inRangeB_iff (a b : ℚ) (p : Property) :
    inRangeB a b p = true ↔ a ≤ p.latestPrice ∧ p.latestPrice ≤ b := by
  simp [inRangeB]

lemma belowB_iff (a b : ℚ) (p : Property) :
    belowB a b p = true ↔ a ≤ p.latestPrice ∧ p.latestPrice < b := by
  simp [belowB]

lemma priceEqB_iff (b : ℚ) (p : Property) :
    priceEqB b p = true ↔ p.latestPrice = b := by
  simp [priceEqB]

lemma toList_node_filter (f : Property → Bool) (l r : BST) (x : Property) :
    (BST.node l x r).toList.filter f
      = l.toList.filter f ++ ([x].filter f ++ r.toList.filter f) := by
  show (l.toList ++ ([x] ++ r.toList)).filter f = _
  rw [List.filter_append, List.filter_append]

lemma search_sound (t : BST) (a b : ℚ) :
    (↑(search_by_price_range t a b) : Multiset Property)
      ≤ ↑(t.toList.filter (inRangeB a b)) := by
  induction t with
  | leaf => simp [search_by_price_range, BST.toList]
  | node l x r ihl ihr =>
      rw [toList_node_filter, search_by_price_range]
      rw [← Multiset.coe_add, ← Multiset.coe_add, ← Multiset.coe_add, ← Multiset.coe_add]
      have hA : (↑(if a ≤ x.latestPrice ∧ x.latestPrice ≤ b then [x] else ([] : List Property))
          : Multiset Property) ≤ ↑([x].filter (inRangeB a b)) := by
        by_cases hc : a ≤ x.latestPrice ∧ x.latestPrice ≤ b
        · rw [if_pos hc]
          have hx : [x].filter (inRangeB a b) = [x] := by
            simp [inRangeB, hc.1, hc.2]
          rw [hx]
        · rw [if_neg hc]
          simp
      have hB : (↑(if a < x.latestPrice then search_by_price_range l a b else [])
          : Multiset Property) ≤ ↑(l.toList.filter (inRangeB a b)) := by
        by_cases hc : a < x.latestPrice
        · rw [if_pos hc]; exact ihl
        · rw [if_neg hc]; simp
      have hC : (↑(if b > x.latestPrice then search_by_price_range r a b else [])
          : Multiset Property) ≤ ↑(r.toList.filter (inRangeB a b)) := by
        by_cases hc : b > x.latestPrice
        · rw [if_pos hc]; exact ihr
        · rw [if_neg hc]; simp
      refine le_trans (add_le_add (add_le_add hA hB) hC) (le_of_eq ?_)
      rw [add_assoc, add_left_comm]

lemma search_below (t : BST) (a b : ℚ) (h : isBST t = true) :
    (↑((search_by_price_range t a b).filter (belowB a b)) : Multiset Property)
      = ↑(t.toList.filter (belowB a b)) := by
  induction t with
  | leaf => simp [search_by_price_range, BST.toList]
  | node l x r ihl ihr =>
      simp only [isBST, Bool.and_eq_true] at h
      obtain ⟨⟨⟨hal, har⟩, hbl⟩, hbr⟩ := h
      have hL := (allPrices_iff _ l).mp hal
      have hR := (allPrices_iff _ r).mp har
      rw [search_by_price_range, toList_node_filter, List.filter_append, List.filter_append]
      rw [← Multiset.coe_add, ← Multiset.coe_add, ← Multiset.coe_add, ← Multiset.coe_add]
      have hA : (↑((if a ≤ x.latestPrice ∧ x.latestPrice ≤ b then [x]
            else ([] : List Property)).filter (belowB a b)) : Multiset Property)
          = ↑([x].filter (belowB a b)) := by
        by_cases hc : a ≤ x.latestPrice ∧ x.latestPrice ≤ b
        · rw [if_pos hc]
        · rw [if_neg hc]
          have hbx : belowB a b x = false := by
            rw [Bool.eq_false_iff, Ne, belowB_iff]
            rintro ⟨h1, h2⟩
            exact hc ⟨h1, le_of_lt h2⟩
          simp [List.filter_cons, hbx]
      have hB : (↑((if a < x.latestPrice then search_by_price_range l a b
            else []).filter (belowB a b)) : Multiset Property)
          = ↑(l.toList.filter (belowB a b)) := by
        by_cases hc : a < x.latestPrice
        · rw [if_pos hc]; exact ihl hbl
        · rw [if_neg hc]
          have hfl : l.toList.filter (belowB a b) = [] := by
            refine List.filter_eq_nil_iff.mpr (fun p hp => ?_)
            rw [Bool.not_eq_true, Bool.eq_false_iff, Ne, belowB_iff]
            rintro ⟨h1, _⟩
            have hpx : p.latestPrice < x.latestPrice := of_decide_eq_true (hL p hp)
            exact absurd (lt_of_lt_of_le hpx (not_lt.mp hc)) (not_lt.mpr h1)
          rw [hfl]
          rfl
      have hC : (↑((if b > x.latestPrice then search_by_price_range r a b
            else []).filter (belowB a b)) : Multiset Property)
          = ↑(r.toList.filter (belowB a b)) := by
        by_cases hc : b > x.latestPrice
        · rw [if_pos hc]; exact ihr hbr
        · rw [if_neg hc]
          have hfr : r.toList.filter (belowB a b) = [] := by
            refine List.filter_eq_nil_iff.mpr (fun p hp => ?_)
            rw [Bool.not_eq_true, Bool.eq_false_iff, Ne, belowB_iff]
            rintro ⟨_, h2⟩
            have hpx : x.latestPrice ≤ p.latestPrice := of_decide_eq_true (hR p hp)
            exact absurd (lt_of_le_of_lt hpx h2) (not_lt.mpr (not_lt.mp hc))
          rw [hfr]
          rfl
      rw [hA, hB, hC, add_assoc, add_left_comm]

lemma search_atMax (t : BST) (a b : ℚ) (hab : a ≤ b) (h : isBST t = true) :
    ((search_by_price_range t a b).filter (priceEqB b)).length
      = min ((t.toList.filter (priceEqB b)).length) 1 := by
  induction t with
  | leaf => simp [search_by_price_range, BST.toList]
  | node l x r ihl ihr =>
      simp only [isBST, Bool.and_eq_true] at h
      obtain ⟨⟨⟨hal, har⟩, hbl⟩, hbr⟩ := h
      have hL := (allPrices_iff _ l).mp hal
      have hR := (allPrices_iff _ r).mp har
      rw [search_by_price_range, toList_node_filter, List.filter_append, List.filter_append,
        List.length_append, List.length_append, List.length_append]
      rcases lt_trichotomy b x.latestPrice with hlt | heq | hgt
      · have hnx : ¬(a ≤ x.latestPrice ∧ x.latestPrice ≤ b) := by
          rintro ⟨_, h2⟩
          exact absurd (lt_of_le_of_lt h2 hlt) (lt_irrefl _)
        have hax : a < x.latestPrice := lt_of_le_of_lt hab hlt
        have hnr : ¬(b > x.latestPrice) := not_lt.mpr (le_of_lt hlt)
        have hfx : [x].filter (priceEqB b) = [] := by
          refine List.filter_eq_nil_iff.mpr (fun p hp => ?_)
          obtain rfl := List.mem_singleton.mp hp
          rw [Bool.not_eq_true, Bool.eq_false_iff, Ne, priceEqB_iff]
          intro hpe
          exact absurd (hpe ▸ hlt) (lt_irrefl _)
        have hfr : r.toList.filter (priceEqB b) = [] := by
          refine List.filter_eq_nil_iff.mpr (fun p hp => ?_)
          rw [Bool.not_eq_true, Bool.eq_false_iff, Ne, priceEqB_iff]
          intro hpe
          have hpx : x.latestPrice ≤ p.latestPrice := of_decide_eq_true (hR p hp)
          exact absurd (lt_of_lt_of_le (hpe ▸ hlt) hpx) (lt_irrefl _)
        rw [if_neg hnx, if_pos hax, if_neg hnr, hfx, hfr, ihl hbl]
        simp
      · have hx : a ≤ x.latestPrice ∧ x.latestPrice ≤ b := ⟨heq ▸ hab, le_of_eq heq.symm⟩
        have hnr : ¬(b > x.latestPrice) := not_lt.mpr (le_of_eq heq)
        have hfx : [x].filter (priceEqB b) = [x] := by
          have : priceEqB b x = true := (priceEqB_iff _ _).mpr heq.symm
          simp [List.filter_cons, this]
        have hfl : l.toList.filter (priceEqB b) = [] := by
          refine List.filter_eq_nil_iff.mpr (fun p hp => ?_)
          rw [Bool.not_eq_true, Bool.eq_false_iff, Ne, priceEqB_iff]
          intro hpe
          have hpx : p.latestPrice < x.latestPrice := of_decide_eq_true (hL p hp)
          exact absurd (heq ▸ hpe ▸ hpx) (lt_irrefl _)
        have hsl : (if a < x.latestPrice then search_by_price_range l a b
            else []).filter (priceEqB b) = [] := by
          by_cases hc : a < x.latestPrice
          · rw [if_pos hc]
            refine List.filter_eq_nil_iff.mpr (fun p hp => ?_)
            rw [Bool.not_eq_true, Bool.eq_false_iff, Ne, priceEqB_iff]
            intro hpe
            have hpl : p ∈ l.toList := mem_of_mem_search l a b p hp
            have hpx : p.latestPrice < x.latestPrice := of_decide_eq_true (hL p hpl)
            exact absurd (heq ▸ hpe ▸ hpx) (lt_irrefl _)
          · rw [if_neg hc]
            rfl
        rw [if_pos hx, if_neg hnr, hfx, hfl, hsl]
        simp
      · have hfx : [x].filter (priceEqB b) = [] := by
          refine List.filter_eq_nil_iff.mpr (fun p hp => ?_)
          obtain rfl := List.mem_singleton.mp hp
          rw [Bool.not_eq_true, Bool.eq_false_iff, Ne, priceEqB_iff]
          intro hpe
          exact absurd (hpe ▸ hgt) (lt_irrefl _)
        have hfl : l.toList.filter (priceEqB b) = [] := by
          refine List.filter_eq_nil_iff.mpr (fun p hp => ?_)
          rw [Bool.not_eq_true, Bool.eq_false_iff, Ne, priceEqB_iff]
          intro hpe
          have hpx : p.latestPrice < x.latestPrice := of_decide_eq_true (hL p hp)
          exact absurd (lt_trans (hpe ▸ hpx) hgt) (lt_irrefl _)
        have hfn : (if a ≤ x.latestPrice ∧ x.latestPrice ≤ b then [x]
            else ([] : List Property)).filter (priceEqB b) = [] := by
          by_cases hc : a ≤ x.latestPrice ∧ x.latestPrice ≤ b
          · rw [if_pos hc, hfx]
          · rw [if_neg hc]
            rfl
        have hsl : (if a < x.latestPrice then search_by_price_range l a b
            else []).filter (priceEqB b) = [] := by
          by_cases hc : a < x.latestPrice
          · rw [if_pos hc]
            refine List.filter_eq_nil_iff.mpr (fun p hp => ?_)
            rw [Bool.not_eq_true, Bool.eq_false_iff, Ne, priceEqB_iff]
            intro hpe
            have hpl : p ∈ l.toList := mem_of_mem_search l a b p hp
            have hpx : p.latestPrice < x.latestPrice := of_decide_eq_true (hL p hpl)
            exact absurd (lt_trans (hpe ▸ hpx) hgt) (lt_irrefl _)
          · rw [if_neg hc]
            rfl
        rw [if_pos hgt, hfn, hsl, hfl, hfx, ihr hbr]
        simp

lemma search_exact (t : BST) (a b : ℚ) (h : isBST t = true)
    (hnd : t.toList.Pairwise (fun p q => p.latestPrice ≠ q.latestPrice)) :
    (↑(search_by_price_range t a b) : Multiset Property)
      = ↑(t.toList.filter (inRangeB a b)) := by
  induction t with
  | leaf => simp [search_by_price_range, BST.toList]
  | node l x r ihl ihr =>
      simp only [isBST, Bool.and_eq_true] at h
      obtain ⟨⟨⟨hal, har⟩, hbl⟩, hbr⟩ := h
      have hL := (allPrices_iff _ l).mp hal
      have hR := (allPrices_iff _ r).mp har
      have hnd2 : (l.toList ++ x :: r.toList).Pairwise
          (fun p q => p.latestPrice ≠ q.latestPrice) := hnd
      rw [List.pairwise_append] at hnd2
      obtain ⟨hndl, hndxr, _⟩ := hnd2
      rw [List.pairwise_cons] at hndxr
      obtain ⟨hxr, hndr⟩ := hndxr
      rw [search_by_price_range, toList_node_filter]
      rw [← Multiset.coe_add, ← Multiset.coe_add, ← Multiset.coe_add, ← Multiset.coe_add]
      have hA : (↑(if a ≤ x.latestPrice ∧ x.latestPrice ≤ b then [x]
            else ([] : List Property)) : Multiset Property)
          = ↑([x].filter (inRangeB a b)) := by
        by_cases hc : a ≤ x.latestPrice ∧ x.latestPrice ≤ b
        · rw [if_pos hc]
          have hx : [x].filter (inRangeB a b) = [x] := by
            simp [inRangeB, hc.1, hc.2]
          rw [hx]
        · rw [if_neg hc]
          have hbx : inRangeB a b x = false := by
            rw [Bool.eq_false_iff, Ne, inRangeB_iff]
            exact hc
          simp [List.filter_cons, hbx]
      have hB : (↑(if a < x.latestPrice then search_by_price_range l a b
            else []) : Multiset Property)
          = ↑(l.toList.filter (inRangeB a b)) := by
        by_cases hc : a < x.latestPrice
        · rw [if_pos hc]; exact ihl hbl hndl
        · rw [if_neg hc]
          have hfl : l.toList.filter (inRangeB a b) = [] := by
            refine List.filter_eq_nil_iff.mpr (fun p hp => ?_)
            rw [Bool.not_eq_true, Bool.eq_false_iff, Ne, inRangeB_iff]
            rintro ⟨h1, _⟩
            have hpx : p.latestPrice < x.latestPrice := of_decide_eq_true (hL p hp)
            exact absurd (lt_of_lt_of_le hpx (not_lt.mp hc)) (not_lt.mpr h1)
          rw [hfl]
      have hC : (↑(if b > x.latestPrice then search_by_price_range r a b
            else []) : Multiset Property)
          = ↑(r.toList.filter (inRangeB a b)) := by
        by_cases hc : b > x.latestPrice
        · rw [if_pos hc]; exact ihr hbr hndr
        · rw [if_neg hc]
          have hfr : r.toList.filter (inRangeB a b) = [] := by
            refine List.filter_eq_nil_iff.mpr (fun p hp => ?_)
            rw [Bool.not_eq_true, Bool.eq_false_iff, Ne, inRangeB_iff]
            rintro ⟨_, h2⟩
            have hpx : x.latestPrice ≤ p.latestPrice := of_decide_eq_true (hR p hp)
            have hpx2 : x.latestPrice < p.latestPrice :=
              lt_of_le_of_ne hpx (hxr p hp)
            exact absurd (lt_of_lt_of_le hpx2 (le_trans h2 (not_lt.mp hc)))
              (lt_irrefl _)
          rw [hfr]
      rw [hA, hB, hC, add_assoc, add_left_comm]

/-! ### Trees built from price-sorted input are right spines -/

lemma insert_rightSpine (M : List Property) (p : Property)
    (h : ∀ q ∈ M, q.latestPrice ≤ p.latestPrice) :
    insert_bst (rightSpine M) p = rightSpine (M ++ [p]) := by
  induction M with
  | nil => rfl
  | cons q M ih =>
      have hq : ¬(p.latestPrice < q.latestPrice) :=
        not_lt.mpr (h q (List.mem_cons_self q M))
      simp only [rightSpine, insert_bst, if_neg hq, List.cons_append]
      rw [ih (fun q2 hq2 => h q2 (List.mem_cons_of_mem q hq2))]
      rfl

lemma foldl_insert_rightSpine (L : List Property) :
    ∀ M : List Property,
      (M ++ L).Pairwise (fun p q => p.latestPrice ≤ q.latestPrice) →
      L.foldl insert_bst (rightSpine M) = rightSpine (M ++ L) := by
  induction L with
  | nil => intro M _; simp
  | cons p L ih =>
      intro M hs
      have hMp : ∀ q ∈ M, q.latestPrice ≤ p.latestPrice := by
        rw [List.pairwise_append] at hs
        exact fun q hq => hs.2.2 q hq p (List.mem_cons_self p L)
      have step : List.foldl insert_bst (rightSpine M) (p :: L)
          = List.foldl insert_bst (rightSpine (M ++ [p])) L := by
        rw [List.foldl_cons, insert_rightSpine M p hMp]
      rw [step, ih (M ++ [p]) (by simpa using hs)]
      simp

lemma buildTree_sorted (L : List Property)
    (h : L.Pairwise (fun p q => p.latestPrice ≤ q.latestPrice)) :
    buildTree L = rightSpine L := by
  have := foldl_insert_rightSpine L [] (by simpa using h)
  simpa [buildTree, rightSpine] using this

lemma search_rightSpine_sublist (L : List Property) (a b : ℚ) :
    (search_by_price_range (rightSpine L) a b).Sublist L := by
  induction L with
  | nil => simp [rightSpine, search_by_price_range]
  | cons p ps ih =>
      rw [rightSpine, search_by_price_range]
      have hmid : (if a < p.latestPrice then
          search_by_price_range BST.leaf a b else []) = [] := by
        by_cases hc : a < p.latestPrice
        · rw [if_pos hc]; rfl
        · rw [if_neg hc]
      rw [hmid, List.append_nil]
      have htail : (if b > p.latestPrice then
          search_by_price_range (rightSpine ps) a b else []).Sublist ps := by
        by_cases hc : b > p.latestPrice
        · rw [if_pos hc]; exact ih
        · rw [if_neg hc]; exact List.nil_sublist ps
      by_cases hc : a ≤ p.latestPrice ∧ p.latestPrice ≤ b
      · rw [if_pos hc]
        exact List.Sublist.cons₂ p htail
      · rw [if_neg hc]
        exact List.Sublist.cons p htail

/-! ### Inverted bounds and state preservation -/

lemma search_inverted (t : BST) (mn mx : ℚ) (h : mx < mn) :
    search_by_price_range t mn mx = [] := by
  induction t with
  | leaf => rfl
  | node l x r ihl ihr =>
      have hx : ¬(mn ≤ x.latestPrice ∧ x.latestPrice ≤ mx) := by
        rintro ⟨h1, h2⟩
        exact absurd (le_trans h1 h2) (not_le.mpr h)
      simp [search_by_price_range, hx, ihl, ihr]

lemma search_run_spec (t : BST) (mn mx : ℚ) :
    ∀ res : List Property,
      search_run t mn mx res = (t, res ++ search_by_price_range t mn mx) := by
  induction t with
  | leaf => intro res; simp [search_run, search_by_price_range]
  | node l x r ihl ihr =>
      intro res
      simp only [search_run, search_by_price_range]
      by_cases h1 : mn ≤ x.latestPrice ∧ x.latestPrice ≤ mx <;>
        by_cases h2 : mn < x.latestPrice <;>
          by_cases h3 : mx > x.latestPrice <;>
            simp [h1, h2, h3, ihl, ihr, List.append_assoc]

/-! ### Grouping lemmas for the aggregation pipeline -/

lemma dictGet_addPrice_same (d : List (String × List ℚ)) (c : String) (q : ℚ) :
    dictGet (addPrice d c q) c = some ((dictGet d c).getD [] ++ [q]) := by
  induction d with
  | nil => simp [addPrice, dictGet]
  | cons g rest ih =>
      obtain ⟨k, qs⟩ := g
      by_cases h : k = c
      · subst h
        simp [addPrice, dictGet]
      · simp [addPrice, dictGet, h, ih]

lemma dictGet_addPrice_other (d : List (String × List ℚ)) (c c2 : String) (q : ℚ)
    (h : c2 ≠ c) : dictGet (addPrice d c q) c2 = dictGet d c2 := by
  induction d with
  | nil => simp [addPrice, dictGet, Ne.symm h]
  | cons g rest ih =>
      obtain ⟨k, qs⟩ := g
      by_cases hk : k = c
      · subst hk
        have : ¬(k = c2) := fun he => h (he.symm)
        simp [addPrice, dictGet, this]
      · by_cases hk2 : k = c2
        · subst hk2
          simp [addPrice, dictGet, hk]
        · simp [addPrice, dictGet, hk, hk2, ih]

lemma dictGet_fold (props : List Property) :
    ∀ (acc : List (String × List ℚ)) (c : String),
      dictGet (props.foldl (fun d p => addPrice d p.city p.latestPrice) acc) c =
        if ((props.filter (fun p => p.city = c)).map (·.latestPrice)) = [] then dictGet acc c
        else some ((dictGet acc c).getD []
          ++ (props.filter (fun p => p.city = c)).map (·.latestPrice)) := by
  induction props with
  | nil => intro acc c; simp
  | cons p ps ih =>
      intro acc c
      rw [List.foldl_cons]
      rw [ih (addPrice acc p.city p.latestPrice) c]
      by_cases h : p.city = c
      · have hfc : (p :: ps).filter (fun p => p.city = c)
            = p :: ps.filter (fun p => p.city = c) := by
          simp [List.filter_cons, h]
        rw [hfc]
        subst h
        rw [dictGet_addPrice_same]
        by_cases h2 : ((ps.filter (fun q => q.city = p.city)).map (·.latestPrice)) = []
        · rw [if_pos h2]
          simp [h2]
        · rw [if_neg h2]
          simp only [List.map_cons, Option.getD_some]
          rw [if_neg (by simp)]
          rw [List.append_assoc]
          rfl
      · have hfc : (p :: ps).filter (fun p => p.city = c)
            = ps.filter (fun p => p.city = c) := by
          simp [List.filter_cons, h]
        rw [hfc, dictGet_addPrice_other acc p.city c p.latestPrice (fun he => h he.symm)]

lemma dictGet_location_prices (props : List Property) (c : String) :
    dictGet (location_prices props) c =
      if ((props.filter (fun p => p.city = c)).map (·.latestPrice)) = [] then none
      else some ((props.filter (fun p => p.city = c)).map (·.latestPrice)) := by
  rw [location_prices, dictGet_fold props [] c]
  simp [dictGet]

lemma dictGet_map_snd {κ α β : Type} [DecidableEq κ] (f : α → β)
    (d : List (κ × α)) (c : κ) :
    dictGet (d.map (fun g => (g.1, f g.2))) c = (dictGet d c).map f := by
  induction d with
  | nil => simp [dictGet]
  | cons g rest ih =>
      obtain ⟨k, v⟩ := g
      by_cases h : k = c
      · subst h
        simp [dictGet]
      · simp [dictGet, h, ih]

lemma addPrice_groups_ne_nil (d : List (String × List ℚ)) (c : String) (q : ℚ)
    (h : ∀ g ∈ d, g.2 ≠ []) : ∀ g ∈ addPrice d c q, g.2 ≠ [] := by
  induction d with
  | nil =>
      intro g hg
      simp only [addPrice, List.mem_singleton] at hg
      subst hg
      simp
  | cons g0 rest ih =>
      obtain ⟨k, qs⟩ := g0
      intro g hg
      by_cases hk : k = c
      · simp only [addPrice, if_pos hk, List.mem_cons] at hg
        rcases hg with rfl | hg
        · simp
        · exact h g (List.mem_cons_of_mem _ hg)
      · simp only [addPrice, if_neg hk, List.mem_cons] at hg
        rcases hg with rfl | hg
        · exact h (k, qs) (List.mem_cons_self _ _)
        · exact ih (fun g2 hg2 => h g2 (List.mem_cons_of_mem _ hg2)) g hg

lemma location_prices_groups_ne_nil (props : List Property) :
    ∀ g ∈ location_prices props, g.2 ≠ [] := by
  rw [location_prices]
  have main : ∀ (acc : List (String × List ℚ)), (∀ g ∈ acc, g.2 ≠ []) →
      ∀ g ∈ props.foldl (fun d p => addPrice d p.city p.latestPrice) acc, g.2 ≠ [] := by
    induction props with
    | nil => intro acc h; exact h
    | cons p ps ih =>
        intro acc h
        rw [List.foldl_cons]
        exact ih (addPrice acc p.city p.latestPrice)
          (addPrice_groups_ne_nil acc p.city p.latestPrice h)
  exact main [] (by simp)

lemma addPrice_sum (d : List (String × List ℚ)) (c : String) (q : ℚ) :
    ((addPrice d c q).map (fun g => g.2.sum)).sum
      = (d.map (fun g => g.2.sum)).sum + q := by
  induction d with
  | nil => simp [addPrice]
  | cons g rest ih =>
      obtain ⟨k, qs⟩ := g
      by_cases hk : k = c
      · simp only [addPrice, if_pos hk, List.map_cons, List.sum_cons]
        rw [List.sum_append]
        simp [add_assoc, add_comm]
      · simp only [addPrice, if_neg hk, List.map_cons, List.sum_cons]
        rw [ih, add_assoc]

lemma location_prices_sum (props : List Property) :
    ((location_prices props).map (fun g => g.2.sum)).sum
      = (props.map (·.latestPrice)).sum := by
  rw [location_prices]
  have main : ∀ acc : List (String × List ℚ),
      ((props.foldl (fun d p => addPrice d p.city p.latestPrice) acc).map
          (fun g => g.2.sum)).sum
        = (acc.map (fun g => g.2.sum)).sum + (props.map (·.latestPrice)).sum := by
    induction props with
    | nil => intro acc; simp
    | cons p ps ih =>
        intro acc
        rw [List.foldl_cons, ih (addPrice acc p.city p.latestPrice), addPrice_sum]
        simp [add_assoc, add_comm, add_left_comm]
  simpa using main []

example : buildTree [⟨1, 100, 2, "A", 2020⟩, ⟨2, 300, 2, "B", 2020⟩, ⟨3, 200, 2, "A", 2021⟩]
    = .node .leaf ⟨1, 100, 2, "A", 2020⟩
        (.node (.node .leaf ⟨3, 200, 2, "A", 2021⟩ .leaf) ⟨2, 300, 2, "B", 2020⟩ .leaf) := by
  decide

example : (search_by_price_range
    (buildTree [⟨1, 100, 2, "A", 2020⟩, ⟨2, 300, 2, "B", 2020⟩, ⟨3, 200, 2, "A", 2021⟩])
    150 300).map (·.id) = [2, 3] := by decide

example : calculate_average_price_by_location
    [⟨1, 100, 2, "A", 2020⟩, ⟨2, 300, 2, "B", 2020⟩, ⟨3, 200, 2, "A", 2021⟩]
    = [("A", 150), ("B", 300)] := by
  norm_num [calculate_average_price_by_location, location_prices, addPrice, List.foldl,
    String.reduceEq]

example : find_trends
    [⟨1, 100, 2, "A", 2020⟩, ⟨2, 300, 2, "B", 2020⟩, ⟨3, 200, 2, "A", 2021⟩]
    = [(2020, [("A", 100), ("B", 300)]), (2021, [("A", 200)])] := by
  simp only [find_trends, yearly_location_prices, addYearPrice, addPrice, List.foldl,
    String.reduceEq, Nat.reduceEqDiff, reduceIte, if_true, if_false]
  norm_num [String.reduceEq]

/-! ### Claim theorems -/

/-- C1 (amended). For every listing list `L` and bounds `a ≤ b`, the range
query on the tree built from `L` returns a sub-multiset of the in-range
listings (nothing out of range, nothing over-counted); the listings with
price in `[a, b)` are returned exactly as often as they occur in `L`; and
the number of returned listings with price exactly `b` is `min(count, 1)`,
so an equal-price duplicate at the upper bound is omitted. These three
constraints hold for every insertion order, but the result is not fully
insertion-order independent: which of several equal-priced listings at the
upper bound is the surviving one depends on the order of insertion. -/
theorem C1_range_query_amended (L : List Property) (a b : ℚ) (hab : a ≤ b) :
    (↑(search_by_price_range (buildTree L) a b) : Multiset Property)
        ≤ ↑(L.filter (inRangeB a b))
    ∧ (↑((search_by_price_range (buildTree L) a b).filter (belowB a b)) : Multiset Property)
        = ↑(L.filter (belowB a b))
    ∧ ((search_by_price_range (buildTree L) a b).filter (priceEqB b)).length
        = min ((L.filter (priceEqB b)).length) 1 := by
  have hperm := toList_buildTree L
  refine ⟨?_, ?_, ?_⟩
  · refine le_trans (search_sound (buildTree L) a b) (le_of_eq ?_)
    exact Multiset.coe_eq_coe.mpr (hperm.filter (inRangeB a b))
  · rw [search_below (buildTree L) a b (isBST_buildTree L)]
    exact Multiset.coe_eq_coe.mpr (hperm.filter (belowB a b))
  · rw [search_atMax (buildTree L) a b hab (isBST_buildTree L)]
    rw [(hperm.filter (priceEqB b)).length_eq]

/-- C1 counterexample. Two listings share price 100; the query `[100, 100]`
returns only one of them, so the result is not the full in-range
sub-multiset of the input: a listing in range is omitted. -/
theorem C1_duplicate_at_max_counterexample :
    ¬ ((↑(search_by_price_range
          (buildTree [⟨1, 100, 2, "A", 2020⟩, ⟨2, 100, 2, "B", 2020⟩]) 100 100)
        : Multiset Property)
      = ↑(([⟨1, 100, 2, "A", 2020⟩, ⟨2, 100, 2, "B", 2020⟩]
            : List Property).filter (inRangeB 100 100))) := by
  intro h
  have hcard := congrArg Multiset.card h
  rw [Multiset.coe_card, Multiset.coe_card] at hcard
  revert hcard
  decide

/-- C1 witness: the amended theorem applied at a concrete input. -/
theorem C1_range_query_amended_witness :
    ((0 : ℚ) ≤ 1000)
    ∧ ((↑(search_by_price_range
            (buildTree [⟨1, 100, 2, "A", 2020⟩, ⟨2, 100, 2, "B", 2020⟩]) 0 1000)
          : Multiset Property)
          ≤ ↑(([⟨1, 100, 2, "A", 2020⟩, ⟨2, 100, 2, "B", 2020⟩]
              : List Property).filter (inRangeB 0 1000))
      ∧ (↑((search_by_price_range
            (buildTree [⟨1, 100, 2, "A", 2020⟩, ⟨2, 100, 2, "B", 2020⟩]) 0 1000).filter
              (belowB 0 1000)) : Multiset Property)
          = ↑(([⟨1, 100, 2, "A", 2020⟩, ⟨2, 100, 2, "B", 2020⟩]
              : List Property).filter (belowB 0 1000))
      ∧ ((search_by_price_range
            (buildTree [⟨1, 100, 2, "A", 2020⟩, ⟨2, 100, 2, "B", 2020⟩]) 0 1000).filter
              (priceEqB 1000)).length
          = min ((([⟨1, 100, 2, "A", 2020⟩, ⟨2, 100, 2, "B", 2020⟩]
              : List Property).filter (priceEqB 1000)).length) 1) :=
  ⟨by norm_num,
    C1_range_query_amended [⟨1, 100, 2, "A", 2020⟩, ⟨2, 100, 2, "B", 2020⟩] 0 1000
      (by norm_num)⟩

/-- C2 (amended). The query output is emitted node-before-subtrees, so it is
not non-decreasing for every tree; it is non-decreasing whenever the tree
was built from a price-non-decreasing listing sequence (a right spine). -/
theorem C2_sorted_input_ordering (L : List Property) (a b : ℚ)
    (hs : L.Pairwise (fun p q => p.latestPrice ≤ q.latestPrice)) :
    (search_by_price_range (buildTree L) a b).Pairwise
      (fun p q => p.latestPrice ≤ q.latestPrice) := by
  rw [buildTree_sorted L hs]
  exact List.Pairwise.sublist (search_rightSpine_sublist L a b) hs

/-- C2 counterexample. Building from prices `[200, 100]` puts 100 in the left
child of 200, and the search appends the root before recursing left, so the
query `[100, 200]` returns prices `[200, 100]` — not non-decreasing. -/
theorem C2_ordering_counterexample :
    ¬ ((search_by_price_range
          (buildTree [⟨1, 200, 2, "A", 2020⟩, ⟨2, 100, 2, "B", 2020⟩]) 100 200).Pairwise
        (fun p q => p.latestPrice ≤ q.latestPrice)) := by
  decide

/-- C2 witness: the amended theorem applied at a concrete sorted input. -/
theorem C2_sorted_input_ordering_witness :
    (([⟨1, 100, 2, "A", 2020⟩, ⟨2, 200, 2, "B", 2020⟩]
        : List Property).Pairwise (fun p q => p.latestPrice ≤ q.latestPrice))
    ∧ (search_by_price_range
        (buildTree [⟨1, 100, 2, "A", 2020⟩, ⟨2, 200, 2, "B", 2020⟩]) 50 300).Pairwise
          (fun p q => p.latestPrice ≤ q.latestPrice) :=
  ⟨by decide,
    C2_sorted_input_ordering [⟨1, 100, 2, "A", 2020⟩, ⟨2, 200, 2, "B", 2020⟩] 50 300
      (by decide)⟩

/-- C4. Every tree produced by `buildTree` satisfies the BST order invariant,
and `insert_bst` preserves it. -/
theorem C4_bst_invariant (L : List Property) (t : BST) (p : Property)
    (h : isBST t = true) :
    isBST (buildTree L) = true ∧ isBST (insert_bst t p) = true :=
  ⟨isBST_buildTree L, isBST_insert t p h⟩

/-- C4 witness: the invariant theorem applied at a concrete tree and listing. -/
theorem C4_bst_invariant_witness :
    (isBST (BST.node .leaf ⟨1, 100, 2, "A", 2020⟩ .leaf) = true)
    ∧ (isBST (buildTree [⟨2, 300, 2, "B", 2020⟩, ⟨3, 200, 2, "A", 2021⟩]) = true
      ∧ isBST (insert_bst (BST.node .leaf ⟨1, 100, 2, "A", 2020⟩ .leaf)
          ⟨4, 50, 1, "C", 2019⟩) = true) :=
  ⟨by decide,
    C4_bst_invariant [⟨2, 300, 2, "B", 2020⟩, ⟨3, 200, 2, "A", 2021⟩]
      (BST.node .leaf ⟨1, 100, 2, "A", 2020⟩ .leaf) ⟨4, 50, 1, "C", 2019⟩ (by decide)⟩

/-- C10. When all prices in the listing sequence are pairwise distinct and
`a ≤ b`, the range query on the built tree returns exactly the in-range
listings, each exactly once (multiset equality with the in-range filter). -/
theorem C10_distinct_prices_exact (L : List Property) (a b : ℚ)
    (hd : L.Pairwise (fun p q => p.latestPrice ≠ q.latestPrice)) (hab : a ≤ b) :
    (↑(search_by_price_range (buildTree L) a b) : Multiset Property)
      = ↑(L.filter (inRangeB a b)) := by
  have hperm := toList_buildTree L
  have hnd : (buildTree L).toList.Pairwise (fun p q => p.latestPrice ≠ q.latestPrice) :=
    (hperm.pairwise_iff (fun hxy => hxy.symm)).mpr hd
  rw [search_exact (buildTree L) a b (isBST_buildTree L) hnd]
  exact Multiset.coe_eq_coe.mpr (hperm.filter (inRangeB a b))

/-- C10 witness: the exactness theorem applied at a concrete distinct-price
input. -/
theorem C10_distinct_prices_exact_witness :
    (([⟨1, 300, 2, "A", 2020⟩, ⟨2, 100, 2, "B", 2020⟩, ⟨3, 200, 2, "A", 2021⟩]
        : List Property).Pairwise (fun p q => p.latestPrice ≠ q.latestPrice))
    ∧ ((150 : ℚ) ≤ 250)
    ∧ (↑(search_by_price_range
          (buildTree [⟨1, 300, 2, "A", 2020⟩, ⟨2, 100, 2, "B", 2020⟩,
            ⟨3, 200, 2, "A", 2021⟩]) 150 250) : Multiset Property)
        = ↑(([⟨1, 300, 2, "A", 2020⟩, ⟨2, 100, 2, "B", 2020⟩,
            ⟨3, 200, 2, "A", 2021⟩] : List Property).filter (inRangeB 150 250)) :=
  ⟨by decide, by norm_num,
    C10_distinct_prices_exact
      [⟨1, 300, 2, "A", 2020⟩, ⟨2, 100, 2, "B", 2020⟩, ⟨3, 200, 2, "A", 2021⟩]
      150 250 (by decide) (by norm_num)⟩

/-- C3 (amended). A fresh analyzer stores `None` as its root, and a range
query issued before `build_price_bst` runs the search on that empty root:
it returns the empty list, whatever the loaded collection and bounds are.
There is no `NotIndexed` failure path in the code. -/
theorem C3_query_before_build_returns_empty (props : List Property) (mn mx : ℚ) :
    find_properties_in_price_range
      { properties := props, price_bst_root := BST.leaf } mn mx = [] :=
  rfl

/-- C3 counterexample. An analyzer holding a listing priced 100 that has not
built its index answers the query `[50, 150]` with the empty list — a silent
empty result for an in-range listing, not a `NotIndexed` failure. -/
theorem C3_notindexed_counterexample :
    inRangeB 50 150 ⟨1, 100, 2, "A", 2020⟩ = true
    ∧ find_properties_in_price_range
        { properties := [⟨1, 100, 2, "A", 2020⟩], price_bst_root := BST.leaf }
        50 150 = [] :=
  ⟨by decide, rfl⟩

/-- C5 (amended). On the scenario listings, the range query for `[150, 300]`
returns the listing with id 2 (price 300) and then the listing with id 3
(price 200) — root-before-left order, not the ascending order the claim
states; the aggregations are as claimed: averages `A ↦ 150`, `B ↦ 300`, and
trends `2020 ↦ (A ↦ 100, B ↦ 300)`, `2021 ↦ (A ↦ 200)` with no `B` entry
under 2021. -/
theorem C5_scenario_amended :
    search_by_price_range (buildTree scenarioListings) 150 300
      = [⟨2, 300, 2, "B", 2020⟩, ⟨3, 200, 2, "A", 2021⟩]
    ∧ calculate_average_price_by_location scenarioListings
      = [("A", 150), ("B", 300)]
    ∧ find_trends scenarioListings
      = [(2020, [("A", 100), ("B", 300)]), (2021, [("A", 200)])]
    ∧ (dictGet (find_trends scenarioListings) 2021).bind (fun m => dictGet m "B")
      = none := by
  have h1 : search_by_price_range (buildTree scenarioListings) 150 300
      = [⟨2, 300, 2, "B", 2020⟩, ⟨3, 200, 2, "A", 2021⟩] := by
    decide
  have h2 : calculate_average_price_by_location scenarioListings
      = [("A", 150), ("B", 300)] := by
    norm_num [calculate_average_price_by_location, location_prices, addPrice,
      scenarioListings, List.foldl, String.reduceEq]
  have h3 : find_trends scenarioListings
      = [(2020, [("A", 100), ("B", 300)]), (2021, [("A", 200)])] := by
    simp only [find_trends, yearly_location_prices, addYearPrice, addPrice,
      scenarioListings, List.foldl, String.reduceEq, Nat.reduceEqDiff, reduceIte,
      if_true, if_false]
    norm_num [String.reduceEq]
  refine ⟨h1, h2, h3, ?_⟩
  rw [h3]
  decide

/-- C5 counterexample. The claim states the query returns the id-3 listing
first and the id-2 listing second; the code returns ids `[2, 3]`. -/
theorem C5_scenario_order_counterexample :
    ¬ ((search_by_price_range (buildTree scenarioListings) 150 300).map (·.id)
      = [3, 2]) := by
  decide

/-- C6. For every city that occurs in the collection,
`calculate_average_price_by_location` maps it to the arithmetic mean of the
prices of exactly the listings of that city; every group is non-empty (so no
mean divides by zero); and summing group-size times group-mean over all city
groups recovers the total sum of all listing prices. -/
theorem C6_average_by_location (props : List Property) (c : String)
    (hc : c ∈ props.map (·.city)) :
    dictGet (calculate_average_price_by_location props) c
      = some ((((props.filter (fun p => p.city = c)).map (·.latestPrice)).sum)
          / ((((props.filter (fun p => p.city = c)).map (·.latestPrice)).length : ℚ)))
    ∧ (∀ g ∈ location_prices props, g.2 ≠ [])
    ∧ ((location_prices props).map
          (fun g => (g.2.length : ℚ) * (g.2.sum / (g.2.length : ℚ)))).sum
        = (props.map (·.latestPrice)).sum := by
  refine ⟨?_, location_prices_groups_ne_nil props, ?_⟩
  · have h1 : dictGet (calculate_average_price_by_location props) c
        = (dictGet (location_prices props) c).map
            (fun qs : List ℚ => qs.sum / (qs.length : ℚ)) :=
      dictGet_map_snd (fun qs : List ℚ => qs.sum / (qs.length : ℚ))
        (location_prices props) c
    have hne : ((props.filter (fun p => p.city = c)).map (·.latestPrice)) ≠ [] := by
      intro hnil
      rw [List.map_eq_nil_iff] at hnil
      obtain ⟨p, hp, hpc⟩ := List.mem_map.mp hc
      exact absurd hpc (by simpa using List.filter_eq_nil_iff.mp hnil p hp)
    rw [h1, dictGet_location_prices, if_neg hne]
    rfl
  · rw [← location_prices_sum props]
    refine congrArg List.sum (List.map_congr_left (fun g hg => ?_))
    have hne := location_prices_groups_ne_nil props g hg
    have hlen : ((g.2.length : ℚ)) ≠ 0 := by
      simpa [List.length_eq_zero] using hne
    rw [mul_comm, div_mul_cancel₀ _ hlen]

/-- C6 witness: the aggregation theorem applied to the scenario listings and
city "A". -/
theorem C6_average_by_location_witness :
    ("A" ∈ scenarioListings.map (·.city))
    ∧ (dictGet (calculate_average_price_by_location scenarioListings) "A"
        = some ((((scenarioListings.filter (fun p => p.city = "A")).map
              (·.latestPrice)).sum)
            / ((((scenarioListings.filter (fun p => p.city = "A")).map
              (·.latestPrice)).length : ℚ)))
      ∧ (∀ g ∈ location_prices scenarioListings, g.2 ≠ [])
      ∧ ((location_prices scenarioListings).map
            (fun g => (g.2.length : ℚ) * (g.2.sum / (g.2.length : ℚ)))).sum
          = (scenarioListings.map (·.latestPrice)).sum) :=
  ⟨by decide, C6_average_by_location scenarioListings "A" (by decide)⟩

/-- C7. Rebuilding is idempotent: `build_price_bst` twice over the same
collection produces the same query results as a single build, for every pair
of bounds — the second build starts again from an empty root rather than
inserting into the existing tree. -/
theorem C7_rebuild_idempotent (a : RealEstateAnalyzer) (mn mx : ℚ) :
    find_properties_in_price_range (build_price_bst (build_price_bst a)) mn mx
      = find_properties_in_price_range (build_price_bst a) mn mx :=
  rfl

/-- C8. With inverted bounds (`mn > mx`) the search returns the empty list on
every tree, and the search on an empty tree returns the empty list for all
bounds. -/
theorem C8_inverted_and_empty (t : BST) (mn mx : ℚ) :
    (mn > mx → search_by_price_range t mn mx = [])
    ∧ search_by_price_range BST.leaf mn mx = [] :=
  ⟨fun h => search_inverted t mn mx h, rfl⟩

/-- C8 witness: the theorem applied at concrete inverted bounds on a concrete
built tree. -/
theorem C8_inverted_and_empty_witness :
    ((5 : ℚ) > 3)
    ∧ search_by_price_range (buildTree [⟨1, 4, 2, "A", 2020⟩]) 5 3 = []
    ∧ search_by_price_range BST.leaf 5 3 = [] :=
  ⟨by norm_num,
    (C8_inverted_and_empty (buildTree [⟨1, 4, 2, "A", 2020⟩]) 5 3).1 (by norm_num),
    (C8_inverted_and_empty (buildTree [⟨1, 4, 2, "A", 2020⟩]) 5 3).2⟩

/-- C9. The read operations leave the analyzer state intact: running the
range query as a state transformer returns the analyzer unchanged (every
node of the tree and the listing collection as before) together with exactly
the pure query result, and the two aggregation passes read only the listing
collection. -/
theorem C9_read_ops_pure (a : RealEstateAnalyzer) (mn mx : ℚ) :
    (find_properties_run a mn mx).1 = a
    ∧ (find_properties_run a mn mx).2 = find_properties_in_price_range a mn mx := by
  have h := search_run_spec a.price_bst_root mn mx []
  refine ⟨?_, ?_⟩ <;>
    simp [find_properties_run, h, find_properties_in_price_range]
